import Mathlib

/-!
Verification of the pushdown decision-and-deployment pipeline of
`SparkJavaJobAnalyzerExecutor.py` against its natural-language specification.

The Python source is shallowly embedded: pure string manipulation becomes
executable Lean functions on `String`/`List Char`, the HTTP/process side
effects of the reconciler and the build pipeline become explicit event
traces, and Python exceptions become an explicit error type.
-/

set_option autoImplicit false

/-! ## Python string primitives

`str.replace`, the `in` substring test and slicing, modelled exactly
(left-to-right, non-overlapping replacement; `''.replace('', r) = r`;
`s.replace('', r)` interleaves `r` around every character). -/

/-- Python `\w` character class (ASCII, as in Python 2 `re` without flags). -/
def idChar (c : Char) : Bool := c.isAlphanum || c == '_'

/-- Python `\s` character class (ASCII). -/
def wsChar (c : Char) : Bool :=
  c == ' ' || c == '\t' || c == '\n' || c == '\r' || c == '\x0b' || c == '\x0c'

/-- Python `pat in s` substring test on character lists (`'' in s` is true). -/
def occursB (pat : List Char) : List Char → Bool
  | [] => pat.isPrefixOf []
  | c :: cs => pat.isPrefixOf (c :: cs) || occursB pat cs

/-- Python `s.replace('', rep)`: `rep` is interleaved around every character. -/
def pyReplaceEmptyPat (rep : List Char) : List Char → List Char
  | [] => rep
  | c :: cs => rep ++ c :: pyReplaceEmptyPat rep cs

/-- Fuel-driven core of Python `s.replace(pat, rep)` for nonempty `pat`:
scan left to right, replacing each non-overlapping occurrence.  One unit of
fuel is spent per step; `s.length` fuel always suffices. -/
def pyReplaceFuel (pat rep : List Char) : Nat → List Char → List Char
  | 0, s => s
  | _ + 1, [] => []
  | n + 1, c :: cs =>
    if pat.isPrefixOf (c :: cs) ∧ pat ≠ [] then
      rep ++ pyReplaceFuel pat rep n (List.drop pat.length (c :: cs))
    else
      c :: pyReplaceFuel pat rep n cs

/-- Python `s.replace(pat, rep)` on character lists. -/
def pyReplaceL (pat rep s : List Char) : List Char :=
  if pat = [] then pyReplaceEmptyPat rep s else pyReplaceFuel pat rep s.length s

/-- Python `s.replace(pat, rep)` on strings. -/
def pyReplaceStr (s pat rep : String) : String :=
  String.mk (pyReplaceL pat.data rep.data s.data)

/-! ## Policy Reconciler (`update_filter_params`, source lines 53-100)

The reconciler's observable behaviour is modelled as an event trace
(the initial GET of the static-policy list, any PUTs, any printed
error lines) together with the Python return value or an uncaught
exception.  The fetched policy list and the HTTP status returned by a
PUT are inputs to the model: `jsonData` is the decoded body of the GET
and `putStatus url body` is the status code the controller would
answer to a PUT.

A crucial, faithfully preserved detail of the source: the inner loop
`for policy in json_data:` (line 75) has only a docstring as its body,
because the `if` on line 77 is indented at the *same* level as the
`for`.  After the inner loop, `policy` is therefore the **last**
element of `json_data` (a `NameError` if the list is empty), and the
`break` on line 79 belongs to the **outer** per-container loop. -/

/-- One lambda of the analyzer output; the reconciler reads its
`lambda-type-and-body` attribute (line 94). -/
structure JsonLambda where
  lambda_type_and_body : String
deriving DecidableEq

/-- One entry of the decoded static-policy list (`id`, `target_id`,
`filter_name` are the attributes the source reads). -/
structure Policy where
  id : String
  target_id : String
  filter_name : String
deriving DecidableEq

/-- Observable effects of one reconciliation call. -/
inductive ReconEvent
  | getPolicies
  | putParams (container url body : String)
  | errorPrint (msg : String)
deriving DecidableEq

/-- Python outcome of `update_filter_params`: a returned value
(`Option Nat` is the possibly-`None` `status_code`) or an uncaught
exception. -/
inductive PyErr
  | nameError
  | attributeError
  | sourceFormatError
deriving DecidableEq

/-- Result of a reconciliation call: the event trace plus either the
returned `status_code` or the exception that escaped. -/
inductive ReconOutcome
  | ret (statusCode : Option Nat)
  | exc (e : PyErr)
deriving DecidableEq

structure ReconRun where
  events : List ReconEvent
  outcome : ReconOutcome
deriving DecidableEq

/-- Source line 28. -/
def LAMBDA_PUSHDOWN_FILTER : String := "lambdapushdown-1.0.jar"

/-- Source line 19. -/
def URL_CRYSTAL_API : String := "http://IP:9000/"

/-- Source lines 91-96: serialize the container's lambdas as
`"0-lambda=<b0>,1-lambda=<b1>,...,"` (the caller strips the final
character with `[:-1]` at line 97).  `index` starts at 0. -/
def lambdasAsStringFrom (index : Nat) : List JsonLambda → String
  | [] => ""
  | l :: rest =>
    toString index ++ "-lambda=" ++ l.lambda_type_and_body ++ "," ++
      lambdasAsStringFrom (index + 1) rest

/-- Source lines 91-96 with the initial `index = 0`. -/
def lambdasAsString (ls : List JsonLambda) : String := lambdasAsStringFrom 0 ls

/-- Source lines 72-100: the per-container loop of `update_filter_params`.
`lambdasToMigrate` is the container-to-lambdas mapping in iteration
order, `status_code` the mutable variable initialised to `None` on
line 69, `evs` the events so far.

Faithful control flow of the mis-indented source:
* line 75's inner loop is a no-op, so `policy` is `jsonData`'s last
  element (`NameError` when `jsonData = []`);
* line 77 tests only that last policy;
* if it matches, line 79's `break` leaves the outer loop, landing on
  line 100 `return status_code`;
* otherwise `policy_id` is still `None`, so lines 81-83 print the
  error and `return None`;
* lines 85-98 (building the PUT URL, encoding the lambdas, the PUT
  itself) are only reachable when `policy_id ≠ None`, which the two
  branches above make impossible; they are kept below as the
  `some policy_id` arm of a match on the literal `none`. -/
def updateLoop (jsonData : List Policy) (putStatus : String → String → Nat) :
    List (String × List JsonLambda) → Option Nat → List ReconEvent → ReconRun
  | [], status_code, evs => ⟨evs, .ret status_code⟩
  | (container, containerLambdas) :: rest, status_code, evs =>
    match jsonData.getLast? with
    | none => ⟨evs, .exc .nameError⟩
    | some policy =>
      if policy.filter_name == LAMBDA_PUSHDOWN_FILTER
          && occursB container.data policy.target_id.data then
        ⟨evs, .ret status_code⟩
      else
        match (none : Option String) with
        | none =>
          ⟨evs ++ [.errorPrint ("ERROR: No lambda filter found for " ++ policy.target_id)],
            .ret none⟩
        | some policy_id =>
          let url := URL_CRYSTAL_API ++ "controller/static_policy/" ++ policy_id
          let params := (lambdasAsString containerLambdas).dropRight 1
          let st := putStatus url params
          updateLoop jsonData putStatus rest (some st)
            (evs ++ [.putParams container url params])

/-- Source lines 53-100: token acquisition and headers are opaque here;
line 63's GET of the static-policy list is the first event, its decoded
body is `jsonData`; then the per-container loop runs with
`status_code = None` (line 69). -/
def update_filter_params (jsonData : List Policy) (putStatus : String → String → Nat)
    (lambdasToMigrate : List (String × List JsonLambda)) : ReconRun :=
  updateLoop jsonData putStatus lambdasToMigrate none [.getPolicies]

/-- Predicate used to state the claims: the fetched policy list has an
entry whose `filter_name` is the lambda-pushdown filter identifier and
whose `target_id` contains the container (the scan of spec §4.3 step 3a). -/
def hasMatchingPolicy (jsonData : List Policy) (container : String) : Bool :=
  jsonData.any fun p =>
    p.filter_name == LAMBDA_PUSHDOWN_FILTER && occursB container.data p.target_id.data

/-- A PUT event for container `c` is covered by a matching policy in
`jsonData`; non-PUT events are vacuously fine. -/
def putHasPolicy (jsonData : List Policy) : ReconEvent → Bool
  | .putParams c _ _ => hasMatchingPolicy jsonData c
  | _ => true

def isPutEvent : ReconEvent → Bool
  | .putParams _ _ _ => true
  | _ => false

def isErrorPrint : ReconEvent → Bool
  | .errorPrint _ => true
  | _ => false

/-- How the source reports `PolicyMissing` (lines 81-83): the
`"ERROR: No lambda filter found"` line is printed and the call returns
`None`.  (The bare return value cannot identify the failure: `None` is
also the initial `status_code`.) -/
def reportsPolicyMissing (r : ReconRun) : Bool :=
  r.events.any isErrorPrint && (r.outcome == .ret none)

/-! ## Job Source Selector and build pipeline (`main`, source lines 131-218) -/

/-- The decoded analyzer output (source lines 149-154). -/
structure JobDecomposition where
  originalJobCode : String
  pushdownJobCode : String
  lambdas : List (String × List JsonLambda)
deriving DecidableEq

/-- Source lines 147-171: selection of the text to compile.  When
`pushdown == 'True'`, line 159 first assigns `originalJobCode`, the
reconciliation result is only printed (line 164), and line 165
unconditionally overwrites the choice with `pushdownJobCode`.
Otherwise the reconciler is called with an empty mapping (its outcome
again only printed) and the job file is read back with
`.read().replace('\n', '')` (lines 170-171). -/
def jobToCompileOf (pushdown : String) (jsonObject : JobDecomposition)
    (filterUpdateOutcome : ReconOutcome) (sparkJobFileContents : String) : String :=
  if pushdown == "True" then jsonObject.pushdownJobCode
  else pyReplaceStr sparkJobFileContents "\n" ""

/-! ### The package-declaration pattern

Line 174 runs `re.search('package\s*(\w\.?)*\s*;', jobToCompile)`.  A
match must start with the literal `package`; the remainder up to the
first `;` must consist of optional whitespace, then a dotted name —
a `(\w\.?)*` sequence, i.e. word/dot characters in which every dot is
immediately preceded by a word character — then optional whitespace.
Since neither `\s` nor `\w` nor `.` can consume a `;`, a match from a
given start position, if any, always ends at the first `;` after the
`package` literal, which the scanner below reproduces. -/

inductive PkgState
  | ws1
  | dotted (lastWord : Bool)
  | ws2
deriving DecidableEq

/-- Scanner for `\s*(\w\.?)*\s*;` starting in `st`; returns the
consumed characters (up to and including the closing `;`). -/
def pkgScan : PkgState → List Char → Option (List Char)
  | _, [] => none
  | st, c :: cs =>
    if c == ';' then some [c]
    else
      match st with
      | .ws1 =>
        if wsChar c then (pkgScan .ws1 cs).map (c :: ·)
        else if idChar c then (pkgScan (.dotted true) cs).map (c :: ·)
        else none
      | .dotted lastWord =>
        if idChar c then (pkgScan (.dotted true) cs).map (c :: ·)
        else if c == '.' && lastWord then (pkgScan (.dotted false) cs).map (c :: ·)
        else if wsChar c then (pkgScan .ws2 cs).map (c :: ·)
        else none
      | .ws2 =>
        if wsChar c then (pkgScan .ws2 cs).map (c :: ·)
        else none

def pkgWord : List Char := "package".data

/-- The regex match attempt anchored at the start of `s`: the literal
`package` followed by a successful scan. -/
def matchPkgAt (s : List Char) : Option (List Char) :=
  if pkgWord.isPrefixOf s then
    (pkgScan .ws1 (s.drop pkgWord.length)).map (fun m => pkgWord ++ m)
  else none

/-- `re.search`: the leftmost match (`m.group(0)` of line 174). -/
def searchPkg : List Char → Option (List Char)
  | [] => none
  | c :: cs =>
    match matchPkgAt (c :: cs) with
    | some m => some m
    | none => searchPkg cs

/-- Number of positions of `s` at which the package pattern matches
(the count of package declarations a text contains). -/
def pkgMatchCount (s : List Char) : Nat :=
  (List.range s.length).countP (fun i => (matchPkgAt (s.drop i)).isSome)

/-! ### Configuration constants (source lines 24-32) and the rewrite -/

def EXECUTOR_LOCATION : String := ""
def JAVAC_PATH : String := "/usr/bin/javac"
def SPARK_FOLDER : String := "/something/spark-2.1.1-bin-hadoop2.7/"
def SPARK_LIBS_LOCATION : String := SPARK_FOLDER ++ "jars/"
def AVAILABLE_RAM : String := "28G"
def AVAILABLE_CPUS : String := "20"
def HDFS_LOCATION : String := "/something/hadoop-2.7.3/bin/hdfs dfs "
def HDFS_IP_PORT : String := "IP:9000"

/-- The harness class name every job is rewritten to (line 177). -/
def harnessName : String := "SparkJobMigratory"

/-- Line 176: `EXECUTOR_LOCATION.replace('/','.')[1:-1]`.  The
deployment location (an empty placeholder in the source's
configuration block) is kept as a parameter `loc`. -/
def pkgFromLoc (loc : String) : String :=
  String.mk (((pyReplaceL ['/'] ['.'] loc.data).drop 1).dropLast)

/-- The fixed target package declaration substituted at lines 175-176. -/
def targetDecl (loc : String) : String := "package " ++ pkgFromLoc loc ++ ";"

/-- Outcome of the source rewriting step. -/
inductive RewriteResult
  | exc (e : PyErr)
  | ok (text : String)
deriving DecidableEq

/-- Source lines 174-177: find the package declaration; when
`re.search` returns `None`, line 175's `m.group(0)` raises an
`AttributeError` (the spec's §7 would have a typed `SourceFormatError`
here, represented by the otherwise-unused `PyErr.sourceFormatError`).
Otherwise replace every occurrence of the matched declaration by the
fixed target declaration, then every occurrence of the job's class
name by `SparkJobMigratory`. -/
def compileStep (loc sparkJobName jobToCompile : String) : RewriteResult :=
  match searchPkg jobToCompile.data with
  | none => .exc .attributeError
  | some m0 =>
    .ok (pyReplaceStr (pyReplaceStr jobToCompile (String.mk m0) (targetDecl loc))
      sparkJobName harnessName)

/-- Observable actions of the build phase (lines 179-218). -/
inductive BuildEvent
  | writeFile (path contents : String)
  | sleep (seconds : Nat)
  | javacProc (cmd : String)
  | jarProc (cmd : String)
  | hdfsPutProc (cmd : String)
  | sparkSubmitProc (cmd : String)
deriving DecidableEq

/-- Source lines 179-218 in program order: write the final source
(`print >> jobFile` appends a newline), `sleep(1)`, spawn `javac`,
`sleep(3)`, spawn `jar`, `sleep(3)`, spawn the HDFS put, `sleep(3)`,
spawn `spark-submit`. -/
def buildPipeline (loc jobToCompile : String) : List BuildEvent :=
  [ .writeFile (loc ++ "/SparkJobMigratory.java") (jobToCompile ++ "\n"),
    .sleep 1,
    .javacProc (JAVAC_PATH ++ " -cp \"" ++ SPARK_LIBS_LOCATION ++ "*\" "
      ++ loc ++ "SparkJobMigratory.java"),
    .sleep 3,
    .jarProc ("jar -cfe " ++ loc ++ "SparkJobMigratory.jar "
      ++ (pyReplaceStr loc "/" ".").drop 1 ++ "SparkJobMigratory "
      ++ loc ++ "SparkJobMigratory.class"),
    .sleep 3,
    .hdfsPutProc (HDFS_LOCATION ++ " -put -f " ++ loc ++ "SparkJobMigratory.jar "
      ++ " /SparkJobMigratory.jar"),
    .sleep 3,
    .sparkSubmitProc ("bash " ++ SPARK_FOLDER
      ++ "bin/spark-submit --deploy-mode cluster --master spark://192.168.2.30:7077 "
      ++ "--class " ++ (pyReplaceStr loc "/" ".").drop 1 ++ "SparkJobMigratory "
      ++ "--driver-class-path " ++ SPARK_FOLDER ++ "jars/stocator-1.0.9.jar "
      ++ "--conf spark.extraListeners=ch.cern.sparkmeasure.FlightRecorderStageMetrics,ch.cern.sparkmeasure.FlightRecorderTaskMetrics "
      ++ "--executor-cores " ++ AVAILABLE_CPUS ++ " --executor-memory " ++ AVAILABLE_RAM
      ++ " hdfs://" ++ HDFS_IP_PORT ++ "/SparkJobMigratory.jar --jars "
      ++ SPARK_FOLDER ++ "jars/*.jar") ]

/-- Whole run of steps 5-7: the rewrite followed, on success, by the
build trace; an exception in the rewrite aborts before any build
event. -/
inductive RunResult
  | exc (e : PyErr)
  | ok (finalSource : String) (events : List BuildEvent)
deriving DecidableEq

def compileAndDeploy (loc sparkJobName jobToCompile : String) : RunResult :=
  match compileStep loc sparkJobName jobToCompile with
  | .exc e => .exc e
  | .ok s2 => .ok s2 (buildPipeline loc s2)

/-! ### Stage ordering vocabulary for the temporal claim -/

inductive StageTag
  | writeStage
  | compileStage
  | packageStage
  | publishStage
  | submitStage
deriving DecidableEq

def tagOf : BuildEvent → Option StageTag
  | .writeFile _ _ => some .writeStage
  | .javacProc _ => some .compileStage
  | .jarProc _ => some .packageStage
  | .hdfsPutProc _ => some .publishStage
  | .sparkSubmitProc _ => some .submitStage
  | .sleep _ => none

/-- The sequence of stage invocations of a trace, in order. -/
def stageTags (evs : List BuildEvent) : List StageTag := evs.filterMap tagOf

def isSleep : BuildEvent → Bool
  | .sleep _ => true
  | _ => false

/-- Scans a trace; `pending = true` means a stage has been started and
no settle delay has elapsed yet, in which state starting another stage
is a violation. -/
def delaySeparatedFrom (pending : Bool) : List BuildEvent → Bool
  | [] => true
  | e :: rest =>
    if isSleep e then delaySeparatedFrom false rest
    else if (tagOf e).isSome then
      if pending then false else delaySeparatedFrom true rest
    else delaySeparatedFrom pending rest

/-- Every stage start is separated from the previous one by at least
one settle delay. -/
def delaySeparated (evs : List BuildEvent) : Bool := delaySeparatedFrom false evs

/-- Word-boundary check at one position: if the pattern occurs at `i`,
its left neighbour (when it exists) and its right neighbour (when it
exists) are non-identifier characters. -/
def flankOkAt (pat s : List Char) (i : Nat) : Bool :=
  !(pat.isPrefixOf (s.drop i)) ||
    ((decide (i = 0) || !(idChar (s.getD (i - 1) ' '))) &&
     (decide (s.length ≤ i + pat.length) || !(idChar (s.getD (i + pat.length) ' '))))

/-- Every occurrence of `pat` in `s` stands as a whole identifier word
(flanked by non-identifier characters or the ends of the text). -/
def flankedB (pat s : List Char) : Bool :=
  (List.range (s.length + 1)).all fun i => flankOkAt pat s i

/-! ## Basic lemmas about the string primitives -/

theorem pyReplaceFuel_fuel_irrel (pat rep : List Char) :
    ∀ n m s, s.length ≤ n → s.length ≤ m →
      pyReplaceFuel pat rep n s = pyReplaceFuel pat rep m s := by
  intro n
  induction n with
  | zero =>
    intro m s hn _
    have hs : s = [] := List.eq_nil_of_length_eq_zero (Nat.le_zero.mp hn)
    subst hs
    cases m <;> rfl
  | succ n ih =>
    intro m s hn hm
    cases s with
    | nil => cases m <;> rfl
    | cons c cs =>
      cases m with
      | zero => exact absurd hm (by simp)
      | succ m =>
        simp only [pyReplaceFuel]
        simp only [List.length_cons] at hn hm
        by_cases h : pat.isPrefixOf (c :: cs) ∧ pat ≠ []
        · rw [if_pos h, if_pos h]
          congr 1
          have hpat : 1 ≤ pat.length := by
            cases pat with
            | nil => exact absurd rfl h.2
            | cons _ _ => simp
          apply ih
          · rw [List.length_drop]
            simp only [List.length_cons]
            omega
          · rw [List.length_drop]
            simp only [List.length_cons]
            omega
        · rw [if_neg h, if_neg h]
          congr 1
          apply ih
          · omega
          · omega

theorem pyReplaceL_nil (pat rep : List Char) (h : pat ≠ []) :
    pyReplaceL pat rep [] = [] := by
  simp only [pyReplaceL, if_neg h]
  rfl

theorem pyReplaceL_cons_neg (pat rep : List Char) (c : Char) (cs : List Char)
    (h : ¬ pat.isPrefixOf (c :: cs)) (hne : pat ≠ []) :
    pyReplaceL pat rep (c :: cs) = c :: pyReplaceL pat rep cs := by
  simp only [pyReplaceL, if_neg hne, List.length_cons, pyReplaceFuel]
  rw [if_neg (fun hc => h hc.1)]

theorem isPrefixOf_append_self (pat t : List Char) : pat.isPrefixOf (pat ++ t) := by
  rw [List.isPrefixOf_iff_prefix]
  exact List.prefix_append pat t

theorem pyReplaceL_at_pat (pat rep t : List Char) (hne : pat ≠ []) :
    pyReplaceL pat rep (pat ++ t) = rep ++ pyReplaceL pat rep t := by
  have hpat : 1 ≤ pat.length := by
    cases pat with
    | nil => exact absurd rfl hne
    | cons _ _ => simp
  obtain ⟨p, ps, hp⟩ : ∃ p ps, pat = p :: ps := by
    cases pat with
    | nil => exact absurd rfl hne
    | cons p ps => exact ⟨p, ps, rfl⟩
  have hstep : ∀ n, pat.length + t.length ≤ n + 1 →
      pyReplaceFuel pat rep (n + 1) (pat ++ t) = rep ++ pyReplaceFuel pat rep n t := by
    intro n _
    subst hp
    rw [List.cons_append]
    simp only [pyReplaceFuel]
    rw [if_pos ⟨by rw [← List.cons_append]; exact isPrefixOf_append_self _ t, hne⟩]
    congr 1
    rw [← List.cons_append, List.drop_left]
  have hlen : (pat ++ t).length = (pat.length + t.length - 1) + 1 := by
    rw [List.length_append]; omega
  simp only [pyReplaceL, if_neg hne]
  rw [hlen, hstep (pat.length + t.length - 1) (by omega)]
  congr 1
  apply pyReplaceFuel_fuel_irrel
  · omega
  · exact le_refl _

theorem occursB_of_isPrefixOf (pat s : List Char) (h : pat.isPrefixOf s) :
    occursB pat s = true := by
  cases s with
  | nil => simpa [occursB] using h
  | cons c cs => simp [occursB, h]

theorem occursB_cons_of_tail (pat : List Char) (c : Char) (cs : List Char)
    (h : occursB pat cs = true) : occursB pat (c :: cs) = true := by
  simp [occursB, h]

theorem pyReplaceL_of_not_occurs (pat rep : List Char) (hne : pat ≠ []) :
    ∀ s, occursB pat s = false → pyReplaceL pat rep s = s := by
  intro s
  induction s with
  | nil => intro _; exact pyReplaceL_nil pat rep hne
  | cons c cs ih =>
    intro h
    simp only [occursB, Bool.or_eq_false_iff] at h
    rw [pyReplaceL_cons_neg pat rep c cs (by simp [h.1]) hne, ih h.2]

/-- `s.replace('\n', '')` removes exactly the newline characters. -/
theorem pyReplaceL_newline_filter :
    ∀ s : List Char, pyReplaceL ['\n'] [] s = s.filter (fun c => c ≠ '\n') := by
  intro s
  induction s with
  | nil => rfl
  | cons c cs ih =>
    by_cases h : c = '\n'
    · subst h
      have : pyReplaceL ['\n'] [] ('\n' :: cs) = [] ++ pyReplaceL ['\n'] [] cs :=
        pyReplaceL_at_pat ['\n'] [] cs (by simp)
      rw [this, ih]
      simp
    · rw [pyReplaceL_cons_neg ['\n'] [] c cs (by simp [List.isPrefixOf]; exact fun hc => h hc.symm) (by simp), ih]
      rw [List.filter_cons, if_pos (by simp [h])]

/-! ## Shape lemmas for the reconciler

Because the mis-indented conditional makes every iteration of the
container loop terminal (`break` or `return None`), a reconciliation
run's trace is the GET alone or the GET followed by one error line;
in particular no PUT is ever issued. -/

theorem update_filter_params_events_shape (jd : List Policy)
    (f : String → String → Nat) (lam : List (String × List JsonLambda)) :
    (update_filter_params jd f lam).events = [.getPolicies] ∨
      ∃ m, (update_filter_params jd f lam).events = [.getPolicies, .errorPrint m] := by
  cases lam with
  | nil => exact Or.inl rfl
  | cons hd rest =>
    obtain ⟨c, ls⟩ := hd
    simp only [update_filter_params, updateLoop]
    cases hjd : jd.getLast? with
    | none => exact Or.inl rfl
    | some p =>
      dsimp only
      by_cases hc : (p.filter_name == LAMBDA_PUSHDOWN_FILTER
          && occursB c.data p.target_id.data) = true
      · rw [if_pos hc]
        exact Or.inl rfl
      · rw [if_neg hc]
        exact Or.inr ⟨_, rfl⟩

theorem update_filter_params_no_puts (jd : List Policy)
    (f : String → String → Nat) (lam : List (String × List JsonLambda)) :
    (update_filter_params jd f lam).events.filter isPutEvent = [] := by
  rcases update_filter_params_events_shape jd f lam with h | ⟨m, h⟩
  · rw [h]; rfl
  · rw [h]; rfl

/-! ## Claims about the Policy Reconciler -/

/-- C1 (counterexample): a mapping requesting containers `c1` and `c2`
with a fetched policy list whose only (and hence last) entry matches
`c1` only.  Container `c2` has no matching pushdown-filter policy in
the list — the claim's hypothesis holds — yet reconciliation does not
report `PolicyMissing`: the matching test on `c1` breaks out of the
whole loop and the call silently returns the initial `None`, with no
error line ever printed. -/
theorem claim_C1_counterexample :
    hasMatchingPolicy [⟨"5", "c1", LAMBDA_PUSHDOWN_FILTER⟩] "c2" = false
    ∧ reportsPolicyMissing (update_filter_params
        [⟨"5", "c1", LAMBDA_PUSHDOWN_FILTER⟩] (fun _ _ => 200)
        [("c1", [⟨"x"⟩]), ("c2", [⟨"y"⟩])]) = false
    ∧ (update_filter_params [⟨"5", "c1", LAMBDA_PUSHDOWN_FILTER⟩] (fun _ _ => 200)
        [("c1", [⟨"x"⟩]), ("c2", [⟨"y"⟩])]) = ⟨[.getPolicies], .ret none⟩ := by
  decide

/-- C1 (amended): when the *first* requested container fails the only
test the code performs — the comparison against the **last** fetched
policy — reconciliation reports `PolicyMissing` (prints the error line
and returns `None`) and issues no PUT call for any container. -/
theorem claim_C1 (jsonData : List Policy) (putStatus : String → String → Nat)
    (c0 : String) (ls0 : List JsonLambda) (rest : List (String × List JsonLambda))
    (p : Policy) (hlast : jsonData.getLast? = some p)
    (hmiss : (p.filter_name == LAMBDA_PUSHDOWN_FILTER
        && occursB c0.data p.target_id.data) = false) :
    reportsPolicyMissing (update_filter_params jsonData putStatus
        ((c0, ls0) :: rest)) = true
    ∧ (update_filter_params jsonData putStatus
        ((c0, ls0) :: rest)).events.filter isPutEvent = [] := by
  refine ⟨?_, update_filter_params_no_puts _ _ _⟩
  simp only [update_filter_params, updateLoop, hlast]
  rw [if_neg (by rw [hmiss]; exact Bool.false_ne_true)]
  rfl

theorem claim_C1_witness :
    reportsPolicyMissing (update_filter_params [⟨"5", "c1", LAMBDA_PUSHDOWN_FILTER⟩]
        (fun _ _ => 200) [("c9", [⟨"x"⟩])]) = true
    ∧ (update_filter_params [⟨"5", "c1", LAMBDA_PUSHDOWN_FILTER⟩]
        (fun _ _ => 200) [("c9", [⟨"x"⟩])]).events.filter isPutEvent = [] :=
  claim_C1 [⟨"5", "c1", LAMBDA_PUSHDOWN_FILTER⟩] (fun _ _ => 200) "c9" [⟨"x"⟩] []
    ⟨"5", "c1", LAMBDA_PUSHDOWN_FILTER⟩ (by decide) (by decide)

/-- C2 (code bug): for a container with a non-empty lambda sequence and
a matching pushdown policy, the claim (and the source's own comments
and dead code, lines 85-98) expect a PUT whose `params` body is
`"0-lambda=<b0>,1-lambda=<b1>"`; the mis-indented `break` leaves the
container loop before the PUT, so the run issues no PUT at all and
returns `None`.  The second conjunct evaluates the (unreachable)
encoding of lines 91-97, which *does* produce exactly the claimed
string. -/
theorem claim_C2 :
    update_filter_params [⟨"7", "c1", LAMBDA_PUSHDOWN_FILTER⟩] (fun _ _ => 200)
        [("c1", [⟨"map|x->x+1"⟩, ⟨"filter|y"⟩])]
      = ⟨[.getPolicies], .ret none⟩
    ∧ (lambdasAsString [⟨"map|x->x+1"⟩, ⟨"filter|y"⟩]).dropRight 1
      = "0-lambda=map|x->x+1,1-lambda=filter|y" := by
  decide

/-- C3: a filter-policy PUT for a container is only ever attempted if
the fetched policy list contains an entry whose `filter_name` is the
lambda-pushdown filter identifier and whose `target_id` contains the
container.  (It holds because the reconciler's PUT branch is
unreachable — no PUT event ever occurs, see
`update_filter_params_no_puts` — so every PUT event in any trace
trivially satisfies the guard.) -/
theorem claim_C3 (jsonData : List Policy) (putStatus : String → String → Nat)
    (lambdasToMigrate : List (String × List JsonLambda)) :
    ((update_filter_params jsonData putStatus lambdasToMigrate).events.all
      (putHasPolicy jsonData)) = true := by
  rcases update_filter_params_events_shape jsonData putStatus lambdasToMigrate
    with h | ⟨m, h⟩
  · rw [h]; rfl
  · rw [h]; rfl

/-- C6 (counterexample): the claim's final part — that the empty-map
reconciliation reports a success *distinct from any failure outcome* —
is false: its returned value is the initial absent `status_code`
(`None`), the very value returned by a `PolicyMissing` failure run. -/
theorem claim_C6_counterexample :
    (update_filter_params [⟨"5", "c1", LAMBDA_PUSHDOWN_FILTER⟩]
        (fun _ _ => 200) []).outcome
      = (update_filter_params [⟨"5", "c1", LAMBDA_PUSHDOWN_FILTER⟩]
          (fun _ _ => 200) [("c9", [⟨"x"⟩])]).outcome
    ∧ reportsPolicyMissing (update_filter_params [⟨"5", "c1", LAMBDA_PUSHDOWN_FILTER⟩]
        (fun _ _ => 200) [("c9", [⟨"x"⟩])]) = true := by
  decide

/-- C6 (amended): reconciling an empty container-to-lambda mapping
still fetches the policy list, issues zero PUT calls and returns the
untouched initial `status_code` (`None`) — a value that is *not*
distinct from the `PolicyMissing` failure return. -/
theorem claim_C6 (jsonData : List Policy) (putStatus : String → String → Nat) :
    update_filter_params jsonData putStatus [] = ⟨[.getPolicies], .ret none⟩ :=
  rfl

/-- C10: the value returned for an empty mapping (the deliberate no-op
path) and the value returned when a required pushdown policy is
missing are the same absent status (`None`); a caller inspecting only
the return value cannot distinguish the two runs. -/
theorem claim_C10 :
    (update_filter_params [⟨"3", "cA", LAMBDA_PUSHDOWN_FILTER⟩]
        (fun _ _ => 201) []).outcome = .ret none
    ∧ (update_filter_params [⟨"3", "cA", LAMBDA_PUSHDOWN_FILTER⟩]
        (fun _ _ => 201) [("cB", [⟨"z"⟩])]).outcome = .ret none
    ∧ reportsPolicyMissing (update_filter_params [⟨"3", "cA", LAMBDA_PUSHDOWN_FILTER⟩]
        (fun _ _ => 201) [("cB", [⟨"z"⟩])]) = true
    ∧ reportsPolicyMissing (update_filter_params [⟨"3", "cA", LAMBDA_PUSHDOWN_FILTER⟩]
        (fun _ _ => 201) []) = false := by
  decide

/-! ## Claims about source selection, rewriting and the build pipeline -/

/-- C4 (counterexample): with pushdown disabled, the text selected for
rewriting is *not* the literal file contents: `.replace('\n', '')` on
line 171 deletes every newline, so a two-line file `"a\nb"` is
selected as `"ab"`. -/
theorem claim_C4_counterexample :
    jobToCompileOf "False" ⟨"orig", "push", []⟩ (.ret none) "a\nb" = "ab"
    ∧ jobToCompileOf "False" ⟨"orig", "push", []⟩ (.ret none) "a\nb" ≠ "a\nb" := by
  decide

/-- C4 (amended): with pushdown disabled, the selected text is the
original job file's contents with every newline character removed and
nothing else changed, regardless of the decomposition and of the
reconciliation outcome. -/
theorem claim_C4 (jsonObject : JobDecomposition) (outcome : ReconOutcome)
    (sparkJobFileContents : String) :
    jobToCompileOf "False" jsonObject outcome sparkJobFileContents
      = String.mk (sparkJobFileContents.data.filter (fun c => c ≠ '\n')) := by
  show pyReplaceStr sparkJobFileContents "\n" "" = _
  unfold pyReplaceStr
  rw [show ("\n" : String).data = ['\n'] from rfl,
    show ("" : String).data = ([] : List Char) from rfl,
    pyReplaceL_newline_filter]

/-- C5: with pushdown enabled the selected source is always the
pushdown-rewritten code of the decomposition, for *every*
reconciliation outcome — including the `PolicyMissing`-style `None`
return, which is only printed (line 164) and never consulted. -/
theorem claim_C5 (jsonObject : JobDecomposition) (outcome : ReconOutcome)
    (sparkJobFileContents : String) :
    jobToCompileOf "True" jsonObject outcome sparkJobFileContents
      = jsonObject.pushdownJobCode :=
  rfl

/-- C7 (counterexample): on a source with no package declaration the
rewrite step does fail before the build stage, but with an uncaught
`AttributeError` from `None.group(0)` — not with the typed
`SourceFormatError` the claim names. -/
theorem claim_C7_counterexample :
    compileAndDeploy "/executor/" "Foo" "class Foo \x7b\x7d" ≠ .exc .sourceFormatError
    ∧ compileAndDeploy "/executor/" "Foo" "class Foo \x7b\x7d" = .exc .attributeError := by
  decide

/-- C7 (amended): whenever the selected source contains no match of
the package-declaration pattern, the run aborts with the uncaught
`AttributeError` raised by `m.group(0)` on line 175, and the build
stage is never reached (no build event is produced). -/
theorem claim_C7 (loc sparkJobName jobToCompile : String)
    (h : searchPkg jobToCompile.data = none) :
    compileAndDeploy loc sparkJobName jobToCompile = .exc .attributeError := by
  unfold compileAndDeploy compileStep
  rw [h]

theorem claim_C7_witness :
    compileAndDeploy "/loc/" "Job1" "public class Job1 \x7b \x7d" = .exc .attributeError :=
  claim_C7 "/loc/" "Job1" "public class Job1 \x7b \x7d" (by decide)

/-- C8 (counterexample): a source beginning with `package a;` but
containing a second declaration `package b;`, for a job class named
`Spark`.  After rewriting, the untouched `package b;` makes a second
package declaration, and every inserted `SparkJobMigratory` still
contains the original class name `Spark` — both halves of the claim
fail. -/
theorem claim_C8_counterexample :
    compileStep "/executor/" "Spark" "package a;\npackage b;\nclass Spark \x7b\x7d"
      = .ok "package executor;\npackage b;\nclass SparkJobMigratory \x7b\x7d"
    ∧ pkgMatchCount ("package executor;\npackage b;\nclass SparkJobMigratory \x7b\x7d" : String).data ≠ 1
    ∧ occursB ("Spark" : String).data
        ("package executor;\npackage b;\nclass SparkJobMigratory \x7b\x7d" : String).data = true := by
  decide

/-- C9: any run reaching the build phase performs exactly the five
stages write, compile, package, publish, submit, in that order, each
once, with at least one settle delay elapsing between consecutive
stage starts. -/
theorem claim_C9 (loc sparkJobName jobToCompile finalSource : String)
    (events : List BuildEvent)
    (h : compileAndDeploy loc sparkJobName jobToCompile = .ok finalSource events) :
    stageTags events
      = [.writeStage, .compileStage, .packageStage, .publishStage, .submitStage]
    ∧ delaySeparated events = true := by
  unfold compileAndDeploy at h
  cases hcs : compileStep loc sparkJobName jobToCompile with
  | exc e =>
    rw [hcs] at h
    exact absurd h (by simp)
  | ok s2 =>
    rw [hcs] at h
    injection h with h1 h2
    subst h2
    exact ⟨rfl, rfl⟩

set_option maxRecDepth 8000 in
theorem claim_C9_witness :
    stageTags (buildPipeline "/executor/" "package executor;x")
      = [.writeStage, .compileStage, .packageStage, .publishStage, .submitStage]
    ∧ delaySeparated (buildPipeline "/executor/" "package executor;x") = true :=
  claim_C9 "/executor/" "J" "package a;x" "package executor;x"
    (buildPipeline "/executor/" "package executor;x") (by decide)

/-! ## Occurrence and word-boundary infrastructure

Used to settle C8: conditions under which the two global
`str.replace` substitutions of lines 175-177 leave exactly one package
declaration and no occurrence of the original class name. -/

theorem occursB_iff (pat : List Char) :
    ∀ s, occursB pat s = true ↔ ∃ i, pat.isPrefixOf (s.drop i) = true := by
  intro s
  induction s with
  | nil =>
    simp only [occursB, List.drop_nil]
    exact ⟨fun h => ⟨0, h⟩, fun ⟨_, h⟩ => h⟩
  | cons c cs ih =>
    simp only [occursB, Bool.or_eq_true]
    constructor
    · rintro (h | h)
      · exact ⟨0, h⟩
      · obtain ⟨i, hi⟩ := ih.mp h
        exact ⟨i + 1, hi⟩
    · rintro ⟨i, hi⟩
      cases i with
      | zero => exact Or.inl hi
      | succ i => exact Or.inr (ih.mpr ⟨i, hi⟩)

theorem occursB_eq_false_iff (pat s : List Char) :
    occursB pat s = false ↔ ∀ i, pat.isPrefixOf (s.drop i) = false := by
  constructor
  · intro h i
    by_contra hc
    rw [Bool.not_eq_false] at hc
    rw [(occursB_iff pat s).mpr ⟨i, hc⟩] at h
    cases h
  · intro h
    by_contra hc
    rw [Bool.not_eq_false] at hc
    obtain ⟨i, hi⟩ := (occursB_iff pat s).mp hc
    rw [h i] at hi
    cases hi

theorem occursB_of_drop (pat s : List Char) (k : Nat)
    (h : occursB pat (s.drop k) = true) : occursB pat s = true := by
  obtain ⟨i, hi⟩ := (occursB_iff pat (s.drop k)).mp h
  rw [List.drop_drop] at hi
  exact (occursB_iff pat s).mpr ⟨k + i, hi⟩

theorem occursB_append_left (pat u v : List Char) (h : occursB pat v = true) :
    occursB pat (u ++ v) = true := by
  induction u with
  | nil => exact h
  | cons c cs ih => exact occursB_cons_of_tail pat c (cs ++ v) ih

theorem occursB_mono_prefix (pat' pat s : List Char)
    (hp : pat'.isPrefixOf pat = true) (h : occursB pat s = true) :
    occursB pat' s = true := by
  obtain ⟨i, hi⟩ := (occursB_iff pat s).mp h
  refine (occursB_iff pat' s).mpr ⟨i, ?_⟩
  rw [List.isPrefixOf_iff_prefix] at *
  exact hp.trans hi

theorem isPrefixOf_ne_nil_lt (pat s : List Char) (i : Nat) (hne : pat ≠ [])
    (h : pat.isPrefixOf (s.drop i) = true) : i < s.length := by
  by_contra hc
  rw [Nat.not_lt] at hc
  rw [List.drop_eq_nil_of_le hc] at h
  cases pat with
  | nil => exact hne rfl
  | cons p ps => cases h

theorem isPrefixOf_append_short (u x y : List Char)
    (h : u.isPrefixOf (x ++ y) = true) (hl : u.length ≤ x.length) :
    u.isPrefixOf x = true := by
  rw [List.isPrefixOf_iff_prefix] at *
  exact List.prefix_of_prefix_length_le h (List.prefix_append x y) hl

theorem isPrefixOf_long_split (u x y : List Char)
    (h : u.isPrefixOf (x ++ y) = true) (hl : x.length < u.length) :
    x.isPrefixOf u = true ∧ (u.drop x.length).isPrefixOf y = true := by
  rw [List.isPrefixOf_iff_prefix] at h
  have hx : x <+: u := by
    exact List.prefix_of_prefix_length_le (List.prefix_append x y) h (Nat.le_of_lt hl)
  obtain ⟨t, ht⟩ := hx
  constructor
  · rw [List.isPrefixOf_iff_prefix]
    exact ⟨t, ht⟩
  · rw [List.isPrefixOf_iff_prefix]
    have hdrop : u.drop x.length = t := by
      rw [← ht, List.drop_left]
    rw [hdrop]
    rw [← ht] at h
    exact (List.prefix_append_right_inj x).mp h

theorem isPrefixOf_getD (u w : List Char) (j : Nat) (d : Char)
    (h : u.isPrefixOf w = true) (hj : j < u.length) :
    w.getD j d = u.getD j d := by
  rw [List.isPrefixOf_iff_prefix] at h
  obtain ⟨t, ht⟩ := h
  rw [← ht]
  exact List.getD_append u t d j hj

theorem isPrefixOf_head (pat : List Char) (d : Char) (X : List Char)
    (hne : pat ≠ []) (h : pat.isPrefixOf (d :: X) = true) :
    ∃ rest, pat = d :: rest := by
  cases pat with
  | nil => exact absurd rfl hne
  | cons p ps =>
    simp only [List.isPrefixOf, Bool.and_eq_true, beq_iff_eq] at h
    exact ⟨ps, by rw [h.1]⟩

theorem flankedB_spec (pat s : List Char) (hne : pat ≠ []) (h : flankedB pat s = true)
    (i : Nat) (hp : pat.isPrefixOf (s.drop i) = true) :
    (i = 0 ∨ idChar (s.getD (i - 1) ' ') = false)
    ∧ (s.length ≤ i + pat.length ∨ idChar (s.getD (i + pat.length) ' ') = false) := by
  have hi : i < s.length := isPrefixOf_ne_nil_lt pat s i hne hp
  have hall := (List.all_eq_true.mp h) i (by rw [List.mem_range]; omega)
  unfold flankOkAt at hall
  rw [hp] at hall
  simp only [Bool.not_true, Bool.false_or, Bool.and_eq_true, Bool.or_eq_true,
    decide_eq_true_eq, Bool.not_eq_true'] at hall
  exact hall

theorem flankedB_append_right (pat u v : List Char) (hne : pat ≠ [])
    (h : flankedB pat (u ++ v) = true) : flankedB pat v = true := by
  unfold flankedB
  rw [List.all_eq_true]
  intro i _
  unfold flankOkAt
  by_cases hp : pat.isPrefixOf (v.drop i) = true
  · rw [hp]
    have hp' : pat.isPrefixOf ((u ++ v).drop (u.length + i)) = true := by
      rw [List.drop_append]
      exact hp
    obtain ⟨hl, hr⟩ := flankedB_spec pat (u ++ v) hne h (u.length + i) hp'
    simp only [Bool.not_true, Bool.false_or, Bool.and_eq_true, Bool.or_eq_true,
      decide_eq_true_eq, Bool.not_eq_true']
    constructor
    · cases Nat.eq_zero_or_pos i with
      | inl h0 => exact Or.inl h0
      | inr hpos =>
        rcases hl with h0 | hnid
        · omega
        · right
          rw [List.getD_append_right u v ' ' (u.length + i - 1) (by omega)] at hnid
          have : u.length + i - 1 - u.length = i - 1 := by omega
          rw [this] at hnid
          exact hnid
    · rcases hr with hlen | hnid
      · left
        rw [List.length_append] at hlen
        omega
      · right
        rw [List.getD_append_right u v ' ' (u.length + i + pat.length) (by omega)] at hnid
        have : u.length + i + pat.length - u.length = i + pat.length := by omega
        rw [this] at hnid
        exact hnid
  · have hp' : pat.isPrefixOf (v.drop i) = false := by
      cases hb : pat.isPrefixOf (v.drop i) with
      | true => exact absurd hb hp
      | false => rfl
    rw [hp']
    rfl

theorem all_idChar_drop (u : List Char) (k : Nat) (h : u.all idChar = true) :
    (u.drop k).all idChar = true := by
  rw [List.all_eq_true] at h ⊢
  intro x hx
  exact h x (List.mem_of_mem_drop hx)

/-- Dichotomy for identifier-word prefixes of a replaced text: an
all-identifier nonempty prefix of `s.replace(pat, rep)` is a prefix of
`s` itself, or a prefix of `rep` taken where `s` starts with `pat`.
Requires every occurrence of `pat` in `s` to be a whole identifier
word. -/
theorem idWord_of_replace (pat rep : List Char) (hpne : pat ≠ [])
    (hpid : pat.all idChar = true) :
    ∀ n b, b.length ≤ n → flankedB pat b = true →
      ∀ u, u ≠ [] → u.all idChar = true →
      u.isPrefixOf (pyReplaceL pat rep b) = true →
      u.isPrefixOf b = true ∨ (u.isPrefixOf rep = true ∧ pat.isPrefixOf b = true) := by
  intro n
  induction n with
  | zero =>
    intro b hb _ u hune _ hu
    have hbe : b = [] := List.eq_nil_of_length_eq_zero (Nat.le_zero.mp hb)
    subst hbe
    rw [pyReplaceL_nil pat rep hpne] at hu
    cases u with
    | nil => exact absurd rfl hune
    | cons a u' => cases hu
  | succ n ih =>
    intro b hb hfl u hune huid hu
    by_cases hpb : pat.isPrefixOf b = true
    · have hdecomp : b = pat ++ b.drop pat.length := by
        rw [List.isPrefixOf_iff_prefix] at hpb
        obtain ⟨t, ht⟩ := hpb
        conv_lhs => rw [← ht]
        rw [← ht, List.drop_left]
      rw [hdecomp, pyReplaceL_at_pat pat rep _ hpne] at hu
      by_cases hlen : u.length ≤ rep.length
      · exact Or.inr ⟨isPrefixOf_append_short u rep _ hu hlen, hpb⟩
      · exfalso
        rw [Nat.not_le] at hlen
        obtain ⟨hrepu, hdrop⟩ := isPrefixOf_long_split u rep _ hu hlen
        have hu'ne : u.drop rep.length ≠ [] := by
          intro hc
          have hl := List.length_drop rep.length u
          rw [hc] at hl
          simp only [List.length_nil] at hl
          omega
        cases hb'c : b.drop pat.length with
        | nil =>
          rw [hb'c, pyReplaceL_nil pat rep hpne] at hdrop
          cases hud : u.drop rep.length with
          | nil => exact hu'ne hud
          | cons a t => rw [hud] at hdrop; cases hdrop
        | cons d b'' =>
          have hflank := flankedB_spec pat b hpne hfl 0
            (by rw [List.drop_zero]; exact hpb)
          have hdnid : idChar d = false := by
            rcases hflank.2 with hle | hnid
            · rw [hdecomp, hb'c, List.length_append, List.length_cons] at hle
              omega
            · rw [Nat.zero_add] at hnid
              conv at hnid => rw [hdecomp, hb'c]
              rw [List.getD_append_right pat _ ' ' pat.length (le_refl _),
                Nat.sub_self] at hnid
              simpa using hnid
          have hnpb' : ¬ pat.isPrefixOf (d :: b'') = true := by
            intro hc
            obtain ⟨rest, hrest⟩ := isPrefixOf_head pat d b'' hpne hc
            rw [hrest, List.all_cons, Bool.and_eq_true] at hpid
            rw [hpid.1] at hdnid
            cases hdnid
          rw [hb'c, pyReplaceL_cons_neg pat rep d b'' hnpb' hpne] at hdrop
          obtain ⟨rest, hrest⟩ := isPrefixOf_head (u.drop rep.length) d _ hu'ne hdrop
          have hall := all_idChar_drop u rep.length huid
          rw [hrest, List.all_cons, Bool.and_eq_true] at hall
          rw [hall.1] at hdnid
          cases hdnid
    · cases b with
      | nil =>
        rw [pyReplaceL_nil pat rep hpne] at hu
        cases u with
        | nil => exact absurd rfl hune
        | cons a u' => cases hu
      | cons c b'' =>
        rw [pyReplaceL_cons_neg pat rep c b'' (fun hc => hpb hc) hpne] at hu
        obtain ⟨u', hu'⟩ := isPrefixOf_head u c _ hune hu
        subst hu'
        rw [List.isPrefixOf, Bool.and_eq_true] at hu
        have hu'pfx := hu.2
        rw [List.all_cons, Bool.and_eq_true] at huid
        by_cases hu'e : u' = []
        · left
          subst hu'e
          rw [List.isPrefixOf, Bool.and_eq_true]
          exact ⟨beq_self_eq_true c, by cases b'' <;> rfl⟩
        · have hfl'' : flankedB pat b'' = true :=
            flankedB_append_right pat [c] b'' hpne (by simpa using hfl)
          rw [List.length_cons] at hb
          rcases ih b'' (by omega) hfl'' u' hu'e huid.2 hu'pfx with h1 | ⟨_, h2⟩
          · left
            rw [List.isPrefixOf, Bool.and_eq_true]
            exact ⟨beq_self_eq_true c, h1⟩
          · exfalso
            have hocc : pat.isPrefixOf ((c :: b'').drop 1) = true := by
              simpa using h2
            have hflank := flankedB_spec pat (c :: b'') hpne hfl 1 hocc
            rcases hflank.1 with h0 | hnid
            · omega
            · simp only [List.getD] at hnid
              rw [show (1 : Nat) - 1 = 0 from rfl] at hnid
              simp only [List.get?_cons_zero, Option.getD_some] at hnid
              rw [huid.1] at hnid
              cases hnid

theorem occursB_nil_of_ne (t : List Char) (h : t ≠ []) : occursB t [] = false := by
  cases t with
  | nil => exact absurd rfl h
  | cons a t' => rfl

/-- If `pat` occurs at the start of `b` as a flanked word, then the
replaced remainder `pyReplaceL pat rep (b.drop pat.length)` cannot
begin with any nonempty all-identifier word: the remainder is empty or
begins with the non-identifier flank character. -/
theorem replace_tail_no_idWord (pat rep : List Char) (hpne : pat ≠ [])
    (hpid : pat.all idChar = true) (b : List Char) (hfl : flankedB pat b = true)
    (hpb : pat.isPrefixOf b = true) (w : List Char) (hwne : w ≠ [])
    (hwid : w.all idChar = true)
    (hw : w.isPrefixOf (pyReplaceL pat rep (b.drop pat.length)) = true) : False := by
  have hdecomp : b = pat ++ b.drop pat.length := by
    rw [List.isPrefixOf_iff_prefix] at hpb
    obtain ⟨t, ht⟩ := hpb
    conv_lhs => rw [← ht]
    rw [← ht, List.drop_left]
  rw [List.isPrefixOf_iff_prefix] at hpb
  cases hb'c : b.drop pat.length with
  | nil =>
    rw [hb'c, pyReplaceL_nil pat rep hpne] at hw
    cases hwd : w with
    | nil => exact hwne hwd
    | cons a t => rw [hwd] at hw; cases hw
  | cons d b'' =>
    have hflank := flankedB_spec pat b hpne hfl 0
      (by rw [List.drop_zero, List.isPrefixOf_iff_prefix]; exact hpb)
    have hdnid : idChar d = false := by
      rcases hflank.2 with hle | hnid
      · rw [hdecomp, hb'c, List.length_append, List.length_cons] at hle
        omega
      · rw [Nat.zero_add] at hnid
        conv at hnid => rw [hdecomp, hb'c]
        rw [List.getD_append_right pat _ ' ' pat.length (le_refl _),
          Nat.sub_self] at hnid
        simpa using hnid
    have hnpb' : ¬ pat.isPrefixOf (d :: b'') = true := by
      intro hc
      obtain ⟨rest, hrest⟩ := isPrefixOf_head pat d b'' hpne hc
      rw [hrest, List.all_cons, Bool.and_eq_true] at hpid
      rw [hpid.1] at hdnid
      cases hdnid
    rw [hb'c, pyReplaceL_cons_neg pat rep d b'' hnpb' hpne] at hw
    obtain ⟨rest, hrest⟩ := isPrefixOf_head w d _ hwne hw
    rw [hrest, List.all_cons, Bool.and_eq_true] at hwid
    rw [hwid.1] at hdnid
    cases hdnid

/-- Core elimination theorem for the class-name substitution: after
`b.replace(pat, rep)` there is no occurrence of an all-identifier word
`t`, provided every occurrence of `pat` in `b` is a whole identifier
word, `t` does not occur in `rep`, and `t` is `pat` itself or does not
occur in `b` at all. -/
theorem occurs_replace_elim (pat rep t : List Char) (hpne : pat ≠ [])
    (hpid : pat.all idChar = true) (htne : t ≠ []) (htid : t.all idChar = true)
    (htrep : occursB t rep = false) :
    ∀ n b, b.length ≤ n → flankedB pat b = true →
      (t = pat ∨ occursB t b = false) →
      occursB t (pyReplaceL pat rep b) = false := by
  intro n
  induction n with
  | zero =>
    intro b hb _ _
    have hbe : b = [] := List.eq_nil_of_length_eq_zero (Nat.le_zero.mp hb)
    subst hbe
    rw [pyReplaceL_nil pat rep hpne]
    exact occursB_nil_of_ne t htne
  | succ n ih =>
    intro b hb hfl hdisj
    have hpat1 : 1 ≤ pat.length := by
      cases pat with
      | nil => exact absurd rfl hpne
      | cons _ _ => simp
    by_cases hpb : pat.isPrefixOf b = true
    · have hdecomp : b = pat ++ b.drop pat.length := by
        rw [List.isPrefixOf_iff_prefix] at hpb
        obtain ⟨t', ht'⟩ := hpb
        conv_lhs => rw [← ht']
        rw [← ht', List.drop_left]
      conv_lhs => rw [hdecomp, pyReplaceL_at_pat pat rep _ hpne]
      rw [occursB_eq_false_iff]
      intro i
      by_contra hc
      rw [Bool.not_eq_false] at hc
      rcases Nat.lt_or_ge i rep.length with hlt | hge
      · rw [List.drop_append_of_le_length (Nat.le_of_lt hlt)] at hc
        by_cases hsz : t.length ≤ (rep.drop i).length
        · have hpfx := isPrefixOf_append_short t _ _ hc hsz
          have hocc : occursB t rep = true := (occursB_iff t rep).mpr ⟨i, hpfx⟩
          rw [htrep] at hocc
          cases hocc
        · rw [Nat.not_le] at hsz
          obtain ⟨hx, hdropt⟩ := isPrefixOf_long_split t _ _ hc hsz
          have htkne : t.drop (rep.drop i).length ≠ [] := by
            intro hcc
            have hl := List.length_drop (rep.drop i).length t
            rw [hcc] at hl
            simp only [List.length_nil] at hl
            omega
          exact replace_tail_no_idWord pat rep hpne hpid b hfl hpb
            (t.drop (rep.drop i).length) htkne
            (all_idChar_drop t _ htid) hdropt
      · have hshift : (rep ++ pyReplaceL pat rep (b.drop pat.length)).drop i
            = (pyReplaceL pat rep (b.drop pat.length)).drop (i - rep.length) := by
          conv_lhs => rw [show i = rep.length + (i - rep.length) by omega]
          exact List.drop_append _
        rw [hshift] at hc
        have hoccR : occursB t (pyReplaceL pat rep (b.drop pat.length)) = true :=
          (occursB_iff _ _).mpr ⟨_, hc⟩
        have hfl' : flankedB pat (b.drop pat.length) = true := by
          apply flankedB_append_right pat pat _ hpne
          rw [← hdecomp]
          exact hfl
        have hdisj' : t = pat ∨ occursB t (b.drop pat.length) = false := by
          rcases hdisj with he | hno
          · exact Or.inl he
          · right
            by_contra hcc
            rw [Bool.not_eq_false] at hcc
            have habs := occursB_append_left t pat _ hcc
            rw [← hdecomp, hno] at habs
            cases habs
        have hlen' : (b.drop pat.length).length ≤ n := by
          rw [List.length_drop]
          omega
        have := ih _ hlen' hfl' hdisj'
        rw [this] at hoccR
        cases hoccR
    · cases b with
      | nil =>
        rw [pyReplaceL_nil pat rep hpne]
        exact occursB_nil_of_ne t htne
      | cons c b'' =>
        have hceq : pyReplaceL pat rep (c :: b'') = c :: pyReplaceL pat rep b'' :=
          pyReplaceL_cons_neg pat rep c b'' (fun hcc => hpb hcc) hpne
        rw [hceq, occursB]
        have h1 : t.isPrefixOf (c :: pyReplaceL pat rep b'') = false := by
          by_contra hcc
          rw [Bool.not_eq_false] at hcc
          rw [← hceq] at hcc
          rcases idWord_of_replace pat rep hpne hpid (n + 1) (c :: b'') hb hfl
            t htne htid hcc with hp1 | ⟨_, hp2⟩
          · rcases hdisj with he | hno
            · subst he
              exact hpb hp1
            · have habs := occursB_of_isPrefixOf _ _ hp1
              rw [hno] at habs
              cases habs
          · exact hpb hp2
        have h2 : occursB t (pyReplaceL pat rep b'') = false := by
          apply ih b'' (by rw [List.length_cons] at hb; omega)
            (flankedB_append_right pat [c] b'' hpne (by simpa using hfl))
          rcases hdisj with he | hno
          · exact Or.inl he
          · right
            rw [occursB, Bool.or_eq_false_iff] at hno
            exact hno.2
        rw [h1, h2]
        rfl

/-! ## Lemmas about the package-declaration matcher -/

theorem nil_isPrefixOf (u : List Char) : ([] : List Char).isPrefixOf u = true := by
  cases u <;> rfl

theorem pkgScan_extend : ∀ (u : List Char) (st : PkgState) (v m : List Char),
    pkgScan st u = some m → pkgScan st (u ++ v) = some m := by
  intro u
  induction u with
  | nil =>
    intro st v m h
    cases h
  | cons c u' ih =>
    intro st v m h
    rw [List.cons_append]
    simp only [pkgScan] at h ⊢
    by_cases hsemi : (c == ';') = true
    · rw [if_pos hsemi] at h ⊢
      exact h
    · rw [if_neg hsemi] at h ⊢
      cases st with
      | ws1 =>
        by_cases hws : wsChar c = true
        · rw [if_pos hws] at h ⊢
          obtain ⟨m', hm', rfl⟩ := Option.map_eq_some'.mp h
          rw [ih _ v m' hm']
          rfl
        · rw [if_neg hws] at h ⊢
          by_cases hid : idChar c = true
          · rw [if_pos hid] at h ⊢
            obtain ⟨m', hm', rfl⟩ := Option.map_eq_some'.mp h
            rw [ih _ v m' hm']
            rfl
          · rw [if_neg hid] at h
            cases h
      | dotted lw =>
        dsimp only at h ⊢
        by_cases hid : idChar c = true
        · rw [if_pos hid] at h ⊢
          obtain ⟨m', hm', rfl⟩ := Option.map_eq_some'.mp h
          rw [ih _ v m' hm']
          rfl
        · rw [if_neg hid] at h ⊢
          by_cases hdot : (c == '.' && lw) = true
          · rw [if_pos hdot] at h ⊢
            obtain ⟨m', hm', rfl⟩ := Option.map_eq_some'.mp h
            rw [ih _ v m' hm']
            rfl
          · rw [if_neg hdot] at h ⊢
            by_cases hws : wsChar c = true
            · rw [if_pos hws] at h ⊢
              obtain ⟨m', hm', rfl⟩ := Option.map_eq_some'.mp h
              rw [ih _ v m' hm']
              rfl
            · rw [if_neg hws] at h
              cases h
      | ws2 =>
        dsimp only at h ⊢
        by_cases hws : wsChar c = true
        · rw [if_pos hws] at h ⊢
          obtain ⟨m', hm', rfl⟩ := Option.map_eq_some'.mp h
          rw [ih _ v m' hm']
          rfl
        · rw [if_neg hws] at h
          cases h

theorem pkgScan_consumed : ∀ (u : List Char) (st : PkgState) (m : List Char),
    pkgScan st u = some m → m.isPrefixOf u = true := by
  intro u
  induction u with
  | nil =>
    intro st m h
    cases h
  | cons c u' ih =>
    intro st m h
    simp only [pkgScan] at h
    by_cases hsemi : (c == ';') = true
    · rw [if_pos hsemi] at h
      injection h with h
      subst h
      rw [List.isPrefixOf, Bool.and_eq_true]
      exact ⟨beq_self_eq_true c, nil_isPrefixOf u'⟩
    · rw [if_neg hsemi] at h
      have hstep : ∀ st', (pkgScan st' u').map (c :: ·) = some m →
          m.isPrefixOf (c :: u') = true := by
        intro st' hmap
        obtain ⟨m', hm', rfl⟩ := Option.map_eq_some'.mp hmap
        rw [List.isPrefixOf, Bool.and_eq_true]
        exact ⟨beq_self_eq_true c, ih _ m' hm'⟩
      cases st with
      | ws1 =>
        by_cases hws : wsChar c = true
        · rw [if_pos hws] at h
          exact hstep _ h
        · rw [if_neg hws] at h
          by_cases hid : idChar c = true
          · rw [if_pos hid] at h
            exact hstep _ h
          · rw [if_neg hid] at h
            cases h
      | dotted lw =>
        dsimp only at h
        by_cases hid : idChar c = true
        · rw [if_pos hid] at h
          exact hstep _ h
        · rw [if_neg hid] at h
          by_cases hdot : (c == '.' && lw) = true
          · rw [if_pos hdot] at h
            exact hstep _ h
          · rw [if_neg hdot] at h
            by_cases hws : wsChar c = true
            · rw [if_pos hws] at h
              exact hstep _ h
            · rw [if_neg hws] at h
              cases h
      | ws2 =>
        dsimp only at h
        by_cases hws : wsChar c = true
        · rw [if_pos hws] at h
          exact hstep _ h
        · rw [if_neg hws] at h
          cases h

theorem matchPkgAt_pkgWord (s m : List Char) (h : matchPkgAt s = some m) :
    pkgWord.isPrefixOf s = true := by
  unfold matchPkgAt at h
  by_cases hp : pkgWord.isPrefixOf s = true
  · exact hp
  · rw [if_neg hp] at h
    cases h

theorem matchPkgAt_is_prefix_result (s m : List Char) (h : matchPkgAt s = some m) :
    pkgWord.isPrefixOf m = true ∧ m.isPrefixOf s = true := by
  have hpw := matchPkgAt_pkgWord s m h
  unfold matchPkgAt at h
  rw [if_pos hpw] at h
  obtain ⟨m', hm', rfl⟩ := Option.map_eq_some'.mp h
  constructor
  · exact isPrefixOf_append_self pkgWord m'
  · have hdecomp : s = pkgWord ++ s.drop pkgWord.length := by
      rw [List.isPrefixOf_iff_prefix] at hpw
      obtain ⟨t, ht⟩ := hpw
      conv_lhs => rw [← ht]
      rw [← ht, List.drop_left]
    rw [List.isPrefixOf_iff_prefix]
    conv_rhs => rw [hdecomp]
    apply (List.prefix_append_right_inj pkgWord).mpr
    rw [← List.isPrefixOf_iff_prefix]
    exact pkgScan_consumed _ _ _ hm'

theorem matchPkgAt_extend (u v m : List Char) (h : matchPkgAt u = some m) :
    matchPkgAt (u ++ v) = some m := by
  have hpw := matchPkgAt_pkgWord u m h
  unfold matchPkgAt at h ⊢
  rw [if_pos hpw] at h
  have hpwv : pkgWord.isPrefixOf (u ++ v) = true := by
    rw [List.isPrefixOf_iff_prefix] at hpw ⊢
    exact hpw.trans (List.prefix_append u v)
  rw [if_pos hpwv]
  obtain ⟨m', hm', rfl⟩ := Option.map_eq_some'.mp h
  have hlen : pkgWord.length ≤ u.length := by
    rw [List.isPrefixOf_iff_prefix] at hpw
    exact hpw.length_le
  rw [List.drop_append_of_le_length hlen]
  rw [pkgScan_extend _ _ _ _ hm']
  rfl

theorem searchPkg_of_matchAt (s m : List Char) (h : matchPkgAt s = some m) :
    searchPkg s = some m := by
  cases s with
  | nil =>
    unfold matchPkgAt at h
    rw [if_neg (by rw [show pkgWord = 'p' :: "ackage".data from rfl]; exact fun hc => by cases hc)] at h
    cases h
  | cons c cs =>
    unfold searchPkg
    rw [h]

theorem getD_drop (l : List Char) (i j : Nat) (d : Char) :
    (l.drop i).getD j d = l.getD (i + j) d := by
  simp only [List.getD]
  rw [List.get?_drop]

/-- If the all-identifier pattern `pat` has no occurrence at position
`i` inside `tgt`, and `tgt` ends with `';'`, then `pat` has no
occurrence at `i` in `tgt ++ v` either: an occurrence reaching past
`tgt` would contain the non-identifier `';'`. -/
theorem no_idOcc_start_in_semi_block (pat tgt v : List Char)
    (hpid : pat.all idChar = true) (hlast : tgt.getLast? = some ';')
    (i : Nat) (hi : i < tgt.length)
    (hnoti : pat.isPrefixOf (tgt.drop i) = false) :
    pat.isPrefixOf ((tgt ++ v).drop i) = false := by
  by_contra hc
  rw [Bool.not_eq_false] at hc
  by_cases hsz : i + pat.length ≤ tgt.length
  · rw [List.drop_append_of_le_length (Nat.le_of_lt hi)] at hc
    have hshort : pat.isPrefixOf (tgt.drop i) = true :=
      isPrefixOf_append_short pat _ v hc (by rw [List.length_drop]; omega)
    rw [hnoti] at hshort
    cases hshort
  · rw [Nat.not_le] at hsz
    have hj : tgt.length - 1 - i < pat.length := by omega
    have hg := isPrefixOf_getD pat ((tgt ++ v).drop i) (tgt.length - 1 - i) ' ' hc hj
    rw [getD_drop, show i + (tgt.length - 1 - i) = tgt.length - 1 by omega,
      List.getD_append tgt v ' ' (tgt.length - 1) (by omega)] at hg
    have hsemi : tgt.getD (tgt.length - 1) ' ' = ';' := by
      simp only [List.getD]
      rw [List.getLast?_eq_get?] at hlast
      rw [hlast]
      rfl
    rw [hsemi] at hg
    have hmem : pat.getD (tgt.length - 1 - i) ' ' ∈ pat := by
      rw [List.getD_eq_getElem pat ' ' hj]
      exact List.getElem_mem hj
    rw [← hg] at hmem
    have := List.all_eq_true.mp hpid ';' hmem
    cases this

theorem pyReplaceL_append_untouched (pat rep : List Char) (hne : pat ≠ []) :
    ∀ u v, (∀ i, i < u.length → pat.isPrefixOf ((u ++ v).drop i) = false) →
      pyReplaceL pat rep (u ++ v) = u ++ pyReplaceL pat rep v := by
  intro u
  induction u with
  | nil =>
    intro v _
    rfl
  | cons c u' ih =>
    intro v h
    have h0 := h 0 (by simp)
    rw [List.drop_zero, List.cons_append] at h0
    rw [List.cons_append,
      pyReplaceL_cons_neg pat rep c (u' ++ v)
        (fun hc => by rw [hc] at h0; cases h0) hne,
      ih v (fun i hi => by
        have hh := h (i + 1) (by rw [List.length_cons]; omega)
        rwa [List.cons_append, List.drop_succ_cons] at hh)]
    rfl

theorem matchPkgAt_nil : matchPkgAt [] = none := by
  unfold matchPkgAt
  rw [if_neg]
  intro hc
  rw [show pkgWord = 'p' :: "ackage".data from rfl] at hc
  cases hc

theorem matchPkgAt_none_of_no_pkgWord (s : List Char)
    (h : pkgWord.isPrefixOf s = false) : matchPkgAt s = none := by
  unfold matchPkgAt
  rw [if_neg (fun hc => by rw [hc] at h; cases h)]

theorem pkgMatchCount_eq_one (s : List Char)
    (h0 : (matchPkgAt s).isSome = true)
    (hrest : ∀ i, 1 ≤ i → i < s.length → (matchPkgAt (s.drop i)).isSome = false) :
    pkgMatchCount s = 1 := by
  have hslen : 1 ≤ s.length := by
    cases s with
    | nil => rw [matchPkgAt_nil] at h0; cases h0
    | cons _ _ => rw [List.length_cons]; omega
  unfold pkgMatchCount
  obtain ⟨n, hn⟩ : ∃ n, s.length = n + 1 := ⟨s.length - 1, by omega⟩
  rw [hn, List.range_succ_eq_map, List.countP_cons, List.countP_map]
  have hz : List.countP
      ((fun i => (matchPkgAt (s.drop i)).isSome) ∘ Nat.succ) (List.range n) = 0 := by
    rw [List.countP_eq_zero]
    intro a ha
    rw [List.mem_range] at ha
    simp only [Function.comp]
    rw [hrest (a + 1) (by omega) (by omega)]
    intro hc
    cases hc
  rw [hz]
  rw [List.drop_zero] at *
  simp only [h0]
  rfl

/-- C8 (amended): for a selected source text that begins with its
package declaration (the regex matches at position 0 yielding `mm`),
in which `package` occurs nowhere after position 0, whose class name
is a nonempty identifier word occurring only as a whole word, not
contained in `SparkJobMigratory` nor in the target declaration, and
whose configured target declaration is itself a single well-formed
package declaration, the rewriting of lines 174-177 produces a text
with exactly one package declaration and zero occurrences of the
original class name. -/
theorem claim_C8 (loc cls job : String) (mm : List Char)
    (h1 : matchPkgAt job.data = some mm)
    (h2 : occursB pkgWord (job.data.drop 1) = false)
    (h3 : flankedB cls.data job.data = true)
    (h4 : cls.data ≠ [])
    (h5 : cls.data.all idChar = true)
    (h6 : occursB cls.data harnessName.data = false)
    (h7 : occursB cls.data (targetDecl loc).data = false)
    (h8 : matchPkgAt (targetDecl loc).data = some (targetDecl loc).data)
    (h9 : occursB pkgWord ((targetDecl loc).data.drop 1) = false) :
    compileStep loc cls job = .ok (pyReplaceStr
        (pyReplaceStr job (String.mk mm) (targetDecl loc)) cls harnessName)
    ∧ pkgMatchCount (pyReplaceStr
        (pyReplaceStr job (String.mk mm) (targetDecl loc)) cls harnessName).data = 1
    ∧ occursB cls.data (pyReplaceStr
        (pyReplaceStr job (String.mk mm) (targetDecl loc)) cls harnessName).data = false := by
  have hsearch : searchPkg job.data = some mm := searchPkg_of_matchAt _ _ h1
  obtain ⟨hpwm, hmmjd⟩ := matchPkgAt_is_prefix_result _ _ h1
  have hmmne : mm ≠ [] := by
    intro hc
    rw [hc] at hpwm
    rw [show pkgWord = 'p' :: "ackage".data from rfl] at hpwm
    cases hpwm
  have hmmlen : 1 ≤ mm.length := by
    cases mm with
    | nil => exact absurd rfl hmmne
    | cons _ _ => rw [List.length_cons]; omega
  have hdecomp : job.data = mm ++ job.data.drop mm.length := by
    rw [List.isPrefixOf_iff_prefix] at hmmjd
    obtain ⟨t, ht⟩ := hmmjd
    conv_lhs => rw [← ht]
    rw [← ht, List.drop_left]
  set b := job.data.drop mm.length with hbdef
  have hF5 : occursB pkgWord b = false := by
    by_contra hc
    rw [Bool.not_eq_false] at hc
    rw [hbdef, show mm.length = 1 + (mm.length - 1) by omega, ← List.drop_drop] at hc
    have := occursB_of_drop pkgWord (job.data.drop 1) (mm.length - 1) hc
    rw [h2] at this
    cases this
  have hF6 : occursB mm b = false := by
    by_contra hc
    rw [Bool.not_eq_false] at hc
    have := occursB_mono_prefix pkgWord mm b hpwm hc
    rw [hF5] at this
    cases this
  have hinner : pyReplaceL mm (targetDecl loc).data job.data
      = (targetDecl loc).data ++ b := by
    conv_lhs => rw [hdecomp]
    rw [pyReplaceL_at_pat mm _ _ hmmne, pyReplaceL_of_not_occurs mm _ hmmne _ hF6]
  have htgtpw : pkgWord.isPrefixOf (targetDecl loc).data = true :=
    matchPkgAt_pkgWord _ _ h8
  have htgtne : (targetDecl loc).data ≠ [] := by
    intro hc
    rw [hc] at htgtpw
    rw [show pkgWord = 'p' :: "ackage".data from rfl] at htgtpw
    cases htgtpw
  have htgtlen : 1 ≤ (targetDecl loc).data.length := by
    cases hc : (targetDecl loc).data with
    | nil => exact absurd hc htgtne
    | cons _ _ => rw [List.length_cons]; omega
  have htgtlast : (targetDecl loc).data.getLast? = some ';' := by
    show (("package " ++ pkgFromLoc loc ++ ";" : String)).data.getLast? = some ';'
    rw [show (("package " ++ pkgFromLoc loc ++ ";" : String)).data
        = ("package " ++ pkgFromLoc loc).data ++ [';'] from String.data_append _ _]
    rw [List.getLast?_concat]
  have hbfl : flankedB cls.data b = true := by
    apply flankedB_append_right cls.data mm b h4
    rw [← hdecomp]
    exact h3
  have hcls_tgt_region : ∀ (X : List Char) i, i < (targetDecl loc).data.length →
      cls.data.isPrefixOf (((targetDecl loc).data ++ X).drop i) = false := by
    intro X i hi
    exact no_idOcc_start_in_semi_block cls.data _ X h5 htgtlast i hi
      ((occursB_eq_false_iff _ _).mp h7 i)
  have houter : pyReplaceL cls.data harnessName.data ((targetDecl loc).data ++ b)
      = (targetDecl loc).data ++ pyReplaceL cls.data harnessName.data b := by
    exact pyReplaceL_append_untouched cls.data harnessName.data h4 _ b
      (hcls_tgt_region b)
  set B := pyReplaceL cls.data harnessName.data b with hBdef
  have hBocc : occursB cls.data B = false := by
    rw [hBdef]
    exact occurs_replace_elim cls.data harnessName.data cls.data h4 h5 h4 h5 h6
      b.length b (le_refl _) hbfl (Or.inl rfl)
  have hpkgB : occursB pkgWord B = false := by
    rw [hBdef]
    apply occurs_replace_elim cls.data harnessName.data pkgWord h4 h5
      (by decide) (by decide) (by decide) b.length b (le_refl _) hbfl
    by_cases hqc : pkgWord = cls.data
    · exact Or.inl hqc
    · exact Or.inr hF5
  have hdata : (pyReplaceStr (pyReplaceStr job (String.mk mm) (targetDecl loc))
      cls harnessName).data
      = pyReplaceL cls.data harnessName.data
          (pyReplaceL mm (targetDecl loc).data job.data) := rfl
  have hout : (pyReplaceStr (pyReplaceStr job (String.mk mm) (targetDecl loc))
      cls harnessName).data = (targetDecl loc).data ++ B := by
    rw [hdata, hinner, houter]
  refine ⟨?_, ?_, ?_⟩
  · unfold compileStep
    rw [hsearch]
  · rw [hout]
    apply pkgMatchCount_eq_one
    · rw [matchPkgAt_extend _ B _ h8]
      rfl
    · intro i hi1 hilen
      apply (Bool.eq_false_iff).mpr
      intro hc
      rw [Option.isSome_iff_exists] at hc
      obtain ⟨m, hm⟩ := hc
      have hpw := matchPkgAt_pkgWord _ _ hm
      rcases Nat.lt_or_ge i (targetDecl loc).data.length with hlt | hge
      · have hnoti : pkgWord.isPrefixOf ((targetDecl loc).data.drop i) = false := by
          have := (occursB_eq_false_iff _ _).mp h9 (i - 1)
          rw [List.drop_drop, show 1 + (i - 1) = i by omega] at this
          exact this
        have := no_idOcc_start_in_semi_block pkgWord _ B (by decide) htgtlast i hlt hnoti
        rw [hpw] at this
        cases this
      · rw [show i = (targetDecl loc).data.length + (i - (targetDecl loc).data.length)
            by omega, List.drop_append] at hpw
        have : occursB pkgWord B = true := (occursB_iff _ _).mpr ⟨_, hpw⟩
        rw [hpkgB] at this
        cases this
  · rw [hout]
    rw [occursB_eq_false_iff]
    intro i
    rcases Nat.lt_or_ge i (targetDecl loc).data.length with hlt | hge
    · exact hcls_tgt_region B i hlt
    · rw [show i = (targetDecl loc).data.length + (i - (targetDecl loc).data.length)
          by omega, List.drop_append]
      apply (Bool.eq_false_iff).mpr
      intro hc
      have : occursB cls.data B = true := (occursB_iff _ _).mpr ⟨_, hc⟩
      rw [hBocc] at this
      cases this

set_option maxRecDepth 8000 in
theorem claim_C8_witness :
    compileStep "/executor/" "MyJob" "package com.acme;\nclass MyJob \x7b MyJob() \x7b\x7d \x7d"
      = .ok (pyReplaceStr
          (pyReplaceStr "package com.acme;\nclass MyJob \x7b MyJob() \x7b\x7d \x7d"
            (String.mk ("package com.acme;" : String).data) (targetDecl "/executor/"))
          "MyJob" harnessName)
    ∧ pkgMatchCount (pyReplaceStr
        (pyReplaceStr "package com.acme;\nclass MyJob \x7b MyJob() \x7b\x7d \x7d"
          (String.mk ("package com.acme;" : String).data) (targetDecl "/executor/"))
        "MyJob" harnessName).data = 1
    ∧ occursB ("MyJob" : String).data (pyReplaceStr
        (pyReplaceStr "package com.acme;\nclass MyJob \x7b MyJob() \x7b\x7d \x7d"
          (String.mk ("package com.acme;" : String).data) (targetDecl "/executor/"))
        "MyJob" harnessName).data = false :=
  claim_C8 "/executor/" "MyJob" "package com.acme;\nclass MyJob \x7b MyJob() \x7b\x7d \x7d"
    ("package com.acme;" : String).data
    (by decide) (by decide) (by decide) (by decide) (by decide)
    (by decide) (by decide) (by decide) (by decide)
